import Mathlib

/-!
Verification of the Huffman codec in `src/Huffman.py`.

The Python source is shallowly embedded below.  Conventions of the embedding:

* Python strings become `List Char`; the bit strings produced by the encoder
  are lists of the characters '0' and '1', exactly as in the source.
* The `Node` namedtuple `(count, letter, left, right)` becomes the nested
  inductive `Node` whose children are `Option Node` (a `None` child is
  `none`); `CompressNode` likewise.
* Python's `heapq` module (`heapify`, `heappush`, `heappop` and the private
  `_siftup` / `_siftdown` helpers) is embedded following the pure-Python
  reference implementation in CPython's `Lib/heapq.py`.  The while loops are
  expressed with an explicit fuel argument; the fuel chosen at each call site
  dominates the number of iterations the Python loop performs, and the
  fuel-exhaustion branch coincides with the loop-exit branch, so the
  functions agree with the Python loops at every call made in this file.
* Python tuple comparison on `Node` values is `nodeCmp` below: componentwise,
  first difference decides.  Comparing a `None` child against a node child
  raises `TypeError` in Python; `nodeCmp` totalises that single case as
  "none is smaller".  No comparison performed while verifying the claims
  reaches that case.
* Fallible operations return `Except PyErr _` (or `Option`), with one
  `PyErr` constructor per Python exception class that the source can raise.
* Python dicts are only ever read back through `d[k]` in the source (they
  are never iterated), so they are embedded as association lists where
  `dictSet` prepends and `dictGet?` takes the first hit: the most recent
  assignment wins, exactly as for a Python dict.
-/

/-- Python exception classes that `Huffman.py` can raise. -/
inductive PyErr where
  | indexError
  | keyError
  | valueError
  | typeError
  | attributeError
deriving DecidableEq, Repr

/-- Embedding of `Node = namedtuple('Node', ['count', 'letter', 'left', 'right'])`. -/
inductive Node where
  | mk : Nat → Char → Option Node → Option Node → Node

/-- Embedding of `CompressNode = namedtuple('CompressNode', ['letter', 'left', 'right'])`. -/
inductive CompressNode where
  | mk : Char → Option CompressNode → Option CompressNode → CompressNode

def Node.count : Node → Nat
  | Node.mk c _ _ _ => c

def Node.letter : Node → Char
  | Node.mk _ l _ _ => l

def Node.left : Node → Option Node
  | Node.mk _ _ le _ => le

def Node.right : Node → Option Node
  | Node.mk _ _ _ ri => ri

def CompressNode.letter : CompressNode → Char
  | CompressNode.mk l _ _ => l

def CompressNode.left : CompressNode → Option CompressNode
  | CompressNode.mk _ le _ => le

def CompressNode.right : CompressNode → Option CompressNode
  | CompressNode.mk _ _ ri => ri

/-- Python comparison `a < b` on `Node` namedtuples, as an `Ordering`:
componentwise comparison of `(count, letter, left, right)`, first
difference decides.  The `none`-versus-`some` child case (where Python
raises `TypeError`) is totalised as `lt`. -/
def nodeCmp : Node → Node → Ordering
  | Node.mk c1 l1 le1 ri1, Node.mk c2 l2 le2 ri2 =>
    match compare c1 c2 with
    | Ordering.lt => Ordering.lt
    | Ordering.gt => Ordering.gt
    | Ordering.eq =>
      match compare l1 l2 with
      | Ordering.lt => Ordering.lt
      | Ordering.gt => Ordering.gt
      | Ordering.eq =>
        match le1, le2 with
        | none, some _ => Ordering.lt
        | some _, none => Ordering.gt
        | none, none =>
          (match ri1, ri2 with
           | none, none => Ordering.eq
           | none, some _ => Ordering.lt
           | some _, none => Ordering.gt
           | some x, some y => nodeCmp x y)
        | some a, some b =>
          match nodeCmp a b with
          | Ordering.eq =>
            (match ri1, ri2 with
             | none, none => Ordering.eq
             | none, some _ => Ordering.lt
             | some _, none => Ordering.gt
             | some x, some y => nodeCmp x y)
          | o => o

/-- Python `a < b` on `Node` values. -/
def nodeLt (a b : Node) : Bool := nodeCmp a b == Ordering.lt

/-- Placeholder node used for (unreachable) out-of-range list reads; it is a
leaf, so it satisfies every structural invariant tracked below. -/
def dummy : Node := Node.mk 0 '\x00' none none

/-- Loop of CPython's `heapq._siftdown(heap, startpos, pos)` (`newitem` has
already been read from `heap[pos]`).  Fuel dominates `pos - startpos`, the
iteration count; at fuel 0 the exit branch is taken. -/
def siftdownLoop : Nat → List Node → Nat → Nat → Node → List Node
  | 0, heap, _, pos, newitem => heap.set pos newitem
  | fuel + 1, heap, startpos, pos, newitem =>
    if startpos < pos then
      let parentpos := (pos - 1) / 2
      let parent := heap.getD parentpos dummy
      if nodeLt newitem parent then
        siftdownLoop fuel (heap.set pos parent) startpos parentpos newitem
      else
        heap.set pos newitem
    else
      heap.set pos newitem

/-- CPython `heapq._siftdown(heap, startpos, pos)`. -/
def siftdown (heap : List Node) (startpos pos : Nat) : List Node :=
  siftdownLoop pos heap startpos pos (heap.getD pos dummy)

/-- Loop of CPython's `heapq._siftup`: bubble the hole at `pos` down to a
leaf, returning the updated list and the final position.  Fuel dominates the
iteration count (`pos` strictly increases and stays below `endpos`); at
fuel 0 the exit branch is taken. -/
def siftupLoop : Nat → List Node → Nat → Nat → List Node × Nat
  | 0, heap, _, pos => (heap, pos)
  | fuel + 1, heap, endpos, pos =>
    let childpos := 2 * pos + 1
    if childpos < endpos then
      let rightpos := childpos + 1
      let cp :=
        if rightpos < endpos &&
            !(nodeLt (heap.getD childpos dummy) (heap.getD rightpos dummy)) then
          rightpos
        else
          childpos
      siftupLoop fuel (heap.set pos (heap.getD cp dummy)) endpos cp
    else
      (heap, pos)

/-- CPython `heapq._siftup(heap, pos)`. -/
def siftup (heap : List Node) (pos : Nat) : List Node :=
  let endpos := heap.length
  let newitem := heap.getD pos dummy
  let hp := siftupLoop endpos heap endpos pos
  siftdown (hp.1.set hp.2 newitem) pos hp.2

/-- CPython `heapq.heappush(heap, item)`. -/
def heappush (heap : List Node) (item : Node) : List Node :=
  siftdown (heap ++ [item]) 0 heap.length

/-- CPython `heapq.heappop(heap)`: `none` models the `IndexError` raised on
an empty heap; otherwise returns the popped minimum and the new heap. -/
def heappop (heap : List Node) : Option (Node × List Node) :=
  match heap.getLast? with
  | none => none
  | some lastelt =>
    match heap.dropLast with
    | [] => some (lastelt, [])
    | r0 :: rtail => some (r0, siftup ((r0 :: rtail).set 0 lastelt) 0)

/-- The loop `for i in reversed(range(n//2)): _siftup(x, i)` of CPython
`heapq.heapify`: applies `siftup` at positions `i-1, i-2, ..., 0`. -/
def heapifyLoop : List Node → Nat → List Node
  | heap, 0 => heap
  | heap, i + 1 => heapifyLoop (siftup heap i) i

/-- CPython `heapq.heapify(x)`. -/
def heapify (heap : List Node) : List Node :=
  heapifyLoop heap (heap.length / 2)

/-- Loop of `make_tree`: `while len(heap) > 1: ...` followed by the final
`heappop`.  Fuel equals the heap length at every call (each iteration shrinks
the heap by exactly one), and the fuel-0 branch coincides with the
loop-exit branch.  `none` models the `IndexError` of popping an empty heap. -/
def makeTreeLoop : Nat → List Node → Option Node
  | 0, heap => (heappop heap).map Prod.fst
  | fuel + 1, heap =>
    if heap.length ≤ 1 then
      (heappop heap).map Prod.fst
    else
      match heappop heap with
      | none => none
      | some (left, h1) =>
        match heappop h1 with
        | none => none
        | some (right, h2) =>
          let count := left.count + right.count
          let node := Node.mk count '\x00' (some left) (some right)
          makeTreeLoop fuel (heappush h2 node)

/-- Embedding of `make_tree(heap)` from `Huffman.py`. -/
def make_tree (heap : List Node) : Option Node :=
  makeTreeLoop heap.length heap

/-- Embedding of `is_leaf(node)` from `Huffman.py`. -/
def is_leaf (node : Node) : Bool :=
  node.left.isNone && node.right.isNone

/-- Code tables: Python dict `{char: code}`, embedded as an association list
where the most recent assignment is found first. -/
abbrev Table := List (Char × List Char)

def dictSet (t : Table) (k : Char) (v : List Char) : Table :=
  (k, v) :: t

def dictGet? (t : Table) (k : Char) : Option (List Char) :=
  (t.find? (fun p => p.1 == k)).map Prod.snd

/-- Embedding of `make_table_recursive(node, path, table)` from `Huffman.py`, for a
non-`None` node: record the path at a leaf, otherwise recurse left with
`path+'0'` and then right with `path+'1'` (a `None` child leaves the table
unchanged, as the source's `if node is None: return`). -/
def makeTableNode : Node → List Char → Table → Table
  | Node.mk _ letter none none, path, table => dictSet table letter path
  | Node.mk _ _ (some a) none, path, table => makeTableNode a (path ++ ['0']) table
  | Node.mk _ _ none (some b), path, table => makeTableNode b (path ++ ['1']) table
  | Node.mk _ _ (some a) (some b), path, table =>
      makeTableNode b (path ++ ['1']) (makeTableNode a (path ++ ['0']) table)

/-- Embedding of `make_table_recursive(node, path, table)` from `Huffman.py`. -/
def make_table_recursive (node : Option Node) (path : List Char) (table : Table) : Table :=
  match node with
  | none => table
  | some n => makeTableNode n path table

/-- Embedding of `make_table(root)` from `Huffman.py`. -/
def make_table (root : Node) : Table :=
  make_table_recursive (some root) [] []

/-- Embedding of `collections.Counter` key order: distinct characters of `text` in order
of first occurrence. -/
def counter_keys (text : List Char) : List Char :=
  text.foldl (fun acc c => if c ∈ acc then acc else acc ++ [c]) []

/-- Embedding of `Counter(text).items()`: each distinct character with its count, in
first-occurrence order. -/
def counter_items (text : List Char) : List (Char × Nat) :=
  (counter_keys text).map (fun c => (c, text.count c))

/-- Embedding of `table[c]` in `encode`: a missing key raises `KeyError`. -/
def tableLookup (table : Table) (c : Char) : Except PyErr (List Char) :=
  match dictGet? table c with
  | some v => Except.ok v
  | none => Except.error PyErr.keyError

/-- Embedding of `encode(text)` from `Huffman.py`: build the counter, heapify the leaf
nodes, build the tree and the table, and concatenate the per-character
codes.  Errors: `IndexError` from popping an empty heap on empty input,
`KeyError` from a missing table entry. -/
def encode (text : List Char) : Except PyErr (List Char × Node) :=
  let nodes := (counter_items text).map (fun p => Node.mk p.2 p.1 none none)
  let heap := heapify nodes
  match make_tree heap with
  | none => Except.error PyErr.indexError
  | some root =>
    let table := make_table root
    match text.mapM (tableLookup table) with
    | Except.error e => Except.error e
    | Except.ok codes => Except.ok (codes.flatten, root)

/-- The walk of `decode`: on each character step to the left child on '0'
and to the right child otherwise; `none` models the `AttributeError` that
Python raises (via `is_leaf(None)`) after stepping onto a missing child;
reaching a leaf emits its letter and resets the walk to the root. -/
def decodeGo (tree : Node) : List Char → Node → List Char → Option (List Char)
  | [], _, result => some result
  | c :: cs, node, result =>
    match (if c = '0' then node.left else node.right) with
    | none => none
    | some nxt =>
      if is_leaf nxt then decodeGo tree cs tree (result ++ [nxt.letter])
      else decodeGo tree cs nxt result

/-- Embedding of `decode(code, tree)` from `Huffman.py`. -/
def decode (code : List Char) (tree : Node) : Option (List Char) :=
  decodeGo tree code tree []

/-- The same walk over a count-stripped `CompressNode` tree (the Python
`decode` is attribute-generic and is applied to both node shapes). -/
def decodeGoC (tree : CompressNode) : List Char → CompressNode → List Char → Option (List Char)
  | [], _, result => some result
  | c :: cs, node, result =>
    match (if c = '0' then node.left else node.right) with
    | none => none
    | some nxt =>
      if nxt.left.isNone && nxt.right.isNone then
        decodeGoC tree cs tree (result ++ [nxt.letter])
      else decodeGoC tree cs nxt result

/-- Embedding of `decode(code, tree)` applied to a `CompressNode` tree, as
`decode_from_files` does. -/
def decodeC (code : List Char) (tree : CompressNode) : Option (List Char) :=
  decodeGoC tree code tree []

/-- Embedding of `tree_for_compression(tree)` from `Huffman.py`: drop the count field.
(`tree.left` is a namedtuple or `None`, so its Python truthiness is exactly
`Option.isSome`.) -/
def tree_for_compression : Node → CompressNode
  | Node.mk _ letter none none => CompressNode.mk letter none none
  | Node.mk _ letter (some a) none =>
      CompressNode.mk letter (some (tree_for_compression a)) none
  | Node.mk _ letter none (some b) =>
      CompressNode.mk letter none (some (tree_for_compression b))
  | Node.mk _ letter (some a) (some b) =>
      CompressNode.mk letter (some (tree_for_compression a)) (some (tree_for_compression b))

/-- JSON values as read back by `json.load` from the tree file: `null`, a
one-character string (a letter), or an array.  `json.dump` serialises a
`CompressNode` namedtuple as the 3-element array of its fields. -/
inductive JVal where
  | null
  | chr (c : Char)
  | arr (l : List JVal)

/-- Python truthiness of a loaded JSON value (`None` and `[]` are falsy). -/
def jTruthy : JVal → Bool
  | JVal.null => false
  | JVal.chr _ => true
  | JVal.arr l => !l.isEmpty

/-- What `json.dump` writes for a `CompressNode`: the nested 3-element
array `[letter, left-or-null, right-or-null]`. -/
def tree_to_list : CompressNode → JVal
  | CompressNode.mk letter none none => JVal.arr [JVal.chr letter, JVal.null, JVal.null]
  | CompressNode.mk letter (some a) none =>
      JVal.arr [JVal.chr letter, tree_to_list a, JVal.null]
  | CompressNode.mk letter none (some b) =>
      JVal.arr [JVal.chr letter, JVal.null, tree_to_list b]
  | CompressNode.mk letter (some a) (some b) =>
      JVal.arr [JVal.chr letter, tree_to_list a, tree_to_list b]

/-- Embedding of `list_to_tree(l)` from `Huffman.py`: `letter = l[0]`, and each child is
rebuilt recursively when the corresponding slot is truthy.  `none` models the
exceptions Python raises on a malformed value (`TypeError` from subscripting
`None`, `IndexError` from a short list).  The tree files written by this
program always hold a one-character string in slot 0, which is what the
`JVal.chr` requirement on that slot captures. -/
def list_to_tree : JVal → Option CompressNode
  | JVal.arr (x0 :: x1 :: x2 :: _) => do
    let letter ← (match x0 with | JVal.chr c => some c | _ => none)
    let lchild ← (if jTruthy x1 then (list_to_tree x1).map some else some none)
    let rchild ← (if jTruthy x2 then (list_to_tree x2).map some else some none)
    some (CompressNode.mk letter lchild rchild)
  | _ => none

/-- Embedding of `byte_to_bits(byte)` from `Huffman.py`: the 8-character
most-significant-bit-first expansion of a byte. -/
def byte_to_bits (byte : Nat) : List Char :=
  (List.range 8).map (fun n => if byte &&& (1 <<< (7 - n)) ≠ 0 then '1' else '0')

/-- Python's negative-end slice `s[-p:]` as used in `decode_from_files`.
For `p = 0` it is `s[0:]`, the whole string. -/
def pySliceLast (s : List Char) (p : Nat) : List Char :=
  if p = 0 then s else s.drop (s.length - p)

/-- Embedding of `int(s, 2)`: `ValueError` on an empty (or non-binary) string. -/
def pyIntBase2 (s : List Char) : Except PyErr Nat :=
  if s.isEmpty || !(s.all (fun c => c == '0' || c == '1')) then
    Except.error PyErr.valueError
  else
    Except.ok (s.foldl (fun n c => 2 * n + (if c == '1' then 1 else 0)) 0)

/-- Embedding of `encode_to_files(text, ...)` from `Huffman.py`, with the two written
artifacts returned instead of written to disk: the code-file byte list
`[prefix-length, first-partial-byte] + full bytes`, and the JSON value
dumped to the tree file. -/
def encode_to_files (text : List Char) : Except PyErr (List Nat × JVal) :=
  match encode text with
  | Except.error e => Except.error e
  | Except.ok (code, tree) =>
    let plen := code.length % 8
    match (List.range (code.length / 8)).mapM
        (fun i => pyIntBase2 ((code.drop (plen + 8 * i)).take 8)) with
    | Except.error e => Except.error e
    | Except.ok data =>
      match pyIntBase2 (code.take plen) with
      | Except.error e => Except.error e
      | Except.ok pbyte =>
        Except.ok (plen :: pbyte :: data, tree_to_list (tree_for_compression tree))

/-- The bit-sequence reassembly of `decode_from_files`: read byte 0 as the
prefix length, expand every following byte with `byte_to_bits`, replace the
first expansion by its slice `[-prefix_len:]`, and concatenate. -/
def unpack_bits (bts : List Nat) : Except PyErr (List Char) :=
  match bts with
  | [] => Except.error PyErr.indexError
  | b0 :: rest =>
    match rest.map byte_to_bits with
    | [] => Except.error PyErr.indexError
    | c0 :: ctail => Except.ok ((pySliceLast c0 b0 :: ctail).flatten)

/-- Embedding of `decode_from_files(codefile, treefile)` from `Huffman.py`, with the two
file contents passed in directly: rebuild the tree from the JSON value,
reassemble the bit sequence, and run `decode`. -/
def decode_from_files (bts : List Nat) (treeJson : JVal) : Except PyErr (List Char) :=
  match list_to_tree treeJson with
  | none => Except.error PyErr.typeError
  | some tree =>
    match unpack_bits bts with
    | Except.error e => Except.error e
    | Except.ok bits =>
      match decodeC bits tree with
      | none => Except.error PyErr.attributeError
      | some result => Except.ok result

/-- Predicate: `a` is an initial segment of `b`. -/
def isPrefOf (a b : List Char) : Bool :=
  b.take a.length == a

/-- The list of `(leaf letter, root-to-leaf path)` pairs of a tree, in the
traversal order of `make_table_recursive` ('0' when descending left, '1'
when descending right). -/
def entN : Node → List Char → List (Char × List Char)
  | Node.mk _ letter none none, path => [(letter, path)]
  | Node.mk _ _ (some a) none, path => entN a (path ++ ['0']) ++ []
  | Node.mk _ _ none (some b), path => [] ++ entN b (path ++ ['1'])
  | Node.mk _ _ (some a) (some b), path =>
      entN a (path ++ ['0']) ++ entN b (path ++ ['1'])

/-- A node is proper when it is a leaf or has both children, recursively:
the shape `make_tree` guarantees (leaves enter with no children, merges
always attach two children). -/
def properB : Node → Bool
  | Node.mk _ _ none none => true
  | Node.mk _ _ (some a) (some b) => properB a && properB b
  | Node.mk _ _ _ _ => false

/-- The nested 3-element serialized-tree form: `[one-character-letter,
left-or-null, right-or-null]`, recursively. -/
def wfSer : JVal → Bool
  | JVal.arr [JVal.chr _, x1, x2] =>
      (match x1 with
       | JVal.null => true
       | JVal.chr _ => false
       | JVal.arr l1 => wfSer (JVal.arr l1)) &&
      (match x2 with
       | JVal.null => true
       | JVal.chr _ => false
       | JVal.arr l2 => wfSer (JVal.arr l2))
  | _ => false

/-! ## Helper lemmas -/

/-- Each character of the code other than '0' sends the `decode` walk to the
right child, exactly as the character '1' does. -/
theorem decodeGo_norm (tree : Node) :
    ∀ (code : List Char) (node : Node) (result : List Char),
      decodeGo tree code node result
        = decodeGo tree (code.map (fun c => if c = '0' then '0' else '1')) node result := by
  intro code
  induction code with
  | nil => intro node result; rfl
  | cons c cs ih =>
    intro node result
    by_cases h : c = '0'
    · subst h
      simp only [List.map_cons, if_pos rfl, decodeGo]
      cases node.left with
      | none => rfl
      | some nxt =>
        by_cases hl : is_leaf nxt <;> simp [hl, ih]
    · simp only [List.map_cons, if_neg h, decodeGo]
      have h1 : ¬(('1' : Char) = '0') := by decide
      simp only [if_neg h1]
      cases node.right with
      | none => rfl
      | some nxt =>
        by_cases hl : is_leaf nxt <;> simp [hl, ih]

/-- Stripping counts keeps the letter. -/
theorem tfc_letter : ∀ n : Node, (tree_for_compression n).letter = n.letter := by
  intro n
  cases n with
  | mk c l le ri => cases le <;> cases ri <;> rfl

/-- Stripping counts maps the left child. -/
theorem tfc_left : ∀ n : Node, (tree_for_compression n).left = n.left.map tree_for_compression := by
  intro n
  cases n with
  | mk c l le ri => cases le <;> cases ri <;> rfl

/-- Stripping counts maps the right child. -/
theorem tfc_right : ∀ n : Node, (tree_for_compression n).right = n.right.map tree_for_compression := by
  intro n
  cases n with
  | mk c l le ri => cases le <;> cases ri <;> rfl

/-- Stripping counts preserves leafness. -/
theorem tfc_isLeaf : ∀ n : Node,
    ((tree_for_compression n).left.isNone && (tree_for_compression n).right.isNone) = is_leaf n := by
  intro n
  rw [tfc_left, tfc_right]
  unfold is_leaf
  cases n.left <;> cases n.right <;> rfl

/-- The `decode` walk gives the same result over the count-stripped tree. -/
theorem decodeGo_strip (tree : Node) :
    ∀ (code : List Char) (node : Node) (res : List Char),
      decodeGoC (tree_for_compression tree) code (tree_for_compression node) res
        = decodeGo tree code node res := by
  intro code
  induction code with
  | nil => intro node res; rfl
  | cons c cs ih =>
    intro node res
    simp only [decodeGo, decodeGoC]
    have hchild :
        (if c = '0' then (tree_for_compression node).left else (tree_for_compression node).right)
          = (if c = '0' then node.left else node.right).map tree_for_compression := by
      by_cases h : c = '0' <;> simp [h, tfc_left, tfc_right]
    rw [hchild]
    cases hx : (if c = '0' then node.left else node.right) with
    | none => rfl
    | some nxt =>
      simp only [Option.map_some']
      by_cases hl : is_leaf nxt
      · simp only [tfc_isLeaf, hl, if_true, tfc_letter]
        exact ih tree (res ++ [nxt.letter])
      · simp only [tfc_isLeaf, hl, if_false]
        exact ih nxt res

/-- Every serialized tree is a non-empty array, hence truthy. -/
theorem jTruthy_tree_to_list : ∀ t : CompressNode, jTruthy (tree_to_list t) = true := by
  intro t
  cases t with
  | mk c le ri => cases le <;> cases ri <;> rfl

/-- JSON `null` is falsy. -/
theorem jTruthy_null : jTruthy JVal.null = false := rfl

/-- Deserialisation inverts serialisation on every `CompressNode`. -/
theorem list_to_tree_tree_to_list : ∀ t : CompressNode, list_to_tree (tree_to_list t) = some t
  | CompressNode.mk c none none => by
      simp [tree_to_list, list_to_tree, jTruthy_null]
  | CompressNode.mk c (some a) none => by
      have ha := list_to_tree_tree_to_list a
      simp [tree_to_list, list_to_tree, jTruthy_null, jTruthy_tree_to_list, ha]
  | CompressNode.mk c none (some b) => by
      have hb := list_to_tree_tree_to_list b
      simp [tree_to_list, list_to_tree, jTruthy_null, jTruthy_tree_to_list, hb]
  | CompressNode.mk c (some a) (some b) => by
      have ha := list_to_tree_tree_to_list a
      have hb := list_to_tree_tree_to_list b
      simp [tree_to_list, list_to_tree, jTruthy_tree_to_list, ha, hb]

/-- A well-formed serialized array is non-empty. -/
theorem wfSer_arr_ne_nil : ∀ l : List JVal, wfSer (JVal.arr l) = true → l.isEmpty = false := by
  intro l hv
  cases l with
  | nil => simp [wfSer] at hv
  | cons x0 l1 => rfl

/-- The `sizeOf` of a JSON value is positive. -/
theorem jval_sizeOf_pos : ∀ x : JVal, 0 < sizeOf x := by
  intro x
  cases x <;> simp

/-- Serialising the tree deserialised from a well-formed nested 3-element
value gives back exactly that value (size-bounded induction). -/
theorem ser_deser_bounded :
    ∀ (k : Nat) (x : JVal), sizeOf x ≤ k → wfSer x = true →
      ∃ t, list_to_tree x = some t ∧ tree_to_list t = x := by
  intro k
  induction k with
  | zero =>
    intro x hx _
    exact absurd hx (by have := jval_sizeOf_pos x; omega)
  | succ k ih =>
    intro x hx hw
    cases x with
    | null => simp [wfSer] at hw
    | chr c => simp [wfSer] at hw
    | arr l =>
      cases l with
      | nil => simp [wfSer] at hw
      | cons x0 t0 =>
        cases t0 with
        | nil => cases x0 <;> simp [wfSer] at hw
        | cons x1 t1 =>
          cases t1 with
          | nil => cases x0 <;> simp [wfSer] at hw
          | cons x2 t2 =>
            cases t2 with
            | cons x3 t3 => cases x0 <;> simp [wfSer] at hw
            | nil =>
              cases x0 with
              | null => simp [wfSer] at hw
              | arr l0 => simp [wfSer] at hw
              | chr c =>
                rw [wfSer.eq_def] at hw
                simp only [Bool.and_eq_true] at hw
                obtain ⟨hw1, hw2⟩ := hw
                have hx1 : sizeOf x1 ≤ k := by simp at hx; omega
                have hx2 : sizeOf x2 ≤ k := by simp at hx; omega
                cases x1 with
                | chr c1 => simp at hw1
                | null =>
                  cases x2 with
                  | chr c2 => simp at hw2
                  | null =>
                    exact ⟨CompressNode.mk c none none, by
                      simp [list_to_tree, jTruthy_null], by simp [tree_to_list]⟩
                  | arr l2 =>
                    have hw2' : wfSer (JVal.arr l2) = true := hw2
                    obtain ⟨t2v, ht2, hs2⟩ := ih (JVal.arr l2) hx2 hw2'
                    have h2e : l2.isEmpty = false := wfSer_arr_ne_nil l2 hw2'
                    refine ⟨CompressNode.mk c none (some t2v), ?_, ?_⟩
                    · simp [list_to_tree, jTruthy, jTruthy_null, h2e, ht2]
                    · simp [tree_to_list, hs2]
                | arr l1 =>
                  have hw1' : wfSer (JVal.arr l1) = true := hw1
                  obtain ⟨t1v, ht1, hs1⟩ := ih (JVal.arr l1) hx1 hw1'
                  have h1e : l1.isEmpty = false := wfSer_arr_ne_nil l1 hw1'
                  cases x2 with
                  | chr c2 => simp at hw2
                  | null =>
                    refine ⟨CompressNode.mk c (some t1v) none, ?_, ?_⟩
                    · simp [list_to_tree, jTruthy, jTruthy_null, h1e, ht1]
                    · simp [tree_to_list, hs1]
                  | arr l2 =>
                    have hw2' : wfSer (JVal.arr l2) = true := hw2
                    obtain ⟨t2v, ht2, hs2⟩ := ih (JVal.arr l2) hx2 hw2'
                    have h2e : l2.isEmpty = false := wfSer_arr_ne_nil l2 hw2'
                    refine ⟨CompressNode.mk c (some t1v) (some t2v), ?_, ?_⟩
                    · simp [list_to_tree, jTruthy, h1e, h2e, ht1, ht2]
                    · simp [tree_to_list, hs1, hs2]

/-! ## Claims -/

/-- Claim C1: the round-trip `decode(encode(T)) == T` fails on the code for
the single-symbol text "a": the single leaf gets the empty code, the encoded
bit string is empty, and `decode` returns the empty text, not "a". -/
theorem c1_roundtrip_fails_on_single_symbol :
    encode ['a'] = Except.ok ([], Node.mk 1 'a' none none) ∧
    decode [] (Node.mk 1 'a' none none) = some [] ∧
    ([] : List Char) ≠ ['a'] :=
  ⟨rfl, rfl, by decide⟩

/-- Claim C2: `encode_to_files` does not succeed when the bit-sequence length
is a multiple of 8: on "abababab" (bit sequence `01010101`, length 8,
prefix length 0) it raises `ValueError` from `int('', 2)` instead of
emitting 0 as the partial byte.  On "ababa" (bit sequence `10101`, length 5)
the packed layout is as described: byte 0 is the prefix length 5, byte 1 is
the value 21 of the 5 prefix bits, and there are no further bytes. -/
theorem c2_encode_to_files_value_error_on_full_byte :
    encode_to_files ['a', 'b', 'a', 'b', 'a', 'b', 'a', 'b'] = Except.error PyErr.valueError ∧
    (encode_to_files ['a', 'b', 'a', 'b', 'a']).map Prod.fst = Except.ok [5, 21] :=
  ⟨rfl, rfl⟩

/-- Claim C3: with prefix length 0 the first data byte contributes all 8 of
its expanded bits, not zero bits: on the code file `[0, 85]` the slice
`codes[0][-0:]` keeps the whole expansion `01010101` of byte 85.  (With a
non-zero prefix length the slice keeps the last `prefix_len` characters as
described: the file `[5, 21]` unpacks to the 5 bits `10101`.) -/
theorem c3_zero_prefix_keeps_all_eight_bits :
    unpack_bits [0, 85] = Except.ok ['0', '1', '0', '1', '0', '1', '0', '1'] ∧
    unpack_bits [5, 21] = Except.ok ['1', '0', '1', '0', '1'] :=
  ⟨rfl, rfl⟩

/-- Claim C4: on empty input `encode` fails with the `IndexError` raised by
`heappop` on an empty heap — an unrelated empty-collection error, not a
named EmptyInput condition (no such condition exists in the code). -/
theorem c4_empty_input_index_error :
    encode ([] : List Char) = Except.error PyErr.indexError :=
  rfl

/-- Claim C5: on the single-symbol text "aaaa" the tree is a single leaf, as
claimed, but the derived table assigns that symbol the empty code (length 0),
not a code of length at least 1. -/
theorem c5_single_symbol_empty_code :
    encode ['a', 'a', 'a', 'a'] = Except.ok ([], Node.mk 4 'a' none none) ∧
    make_table (Node.mk 4 'a' none none) = [('a', [])] :=
  ⟨rfl, rfl⟩

/-- Claim C10: `decode` validates nothing about the bit alphabet: replacing
every character other than '0' by '1' leaves the result unchanged, i.e. any
invalid character behaves exactly as '1'. -/
theorem c10_non_zero_chars_act_as_one :
    ∀ (code : List Char) (tree : Node),
      decode code tree = decode (code.map (fun c => if c = '0' then '0' else '1')) tree := by
  intro code tree
  exact decodeGo_norm tree code tree []

/-- Claim C7: serialising the tree deserialised from any nested 3-element
serialized value gives back that value structurally; and for every tree,
the count-stripped tree round-tripped through `tree_to_list` (what
`json.dump` writes) and `list_to_tree` is rebuilt identically — same shape
and leaf symbols — so decoding with it gives the same output as decoding
with the original tree. -/
theorem c7_serialize_round_trip :
    (∀ x : JVal, wfSer x = true → ∃ t, list_to_tree x = some t ∧ tree_to_list t = x) ∧
    (∀ (root : Node),
      list_to_tree (tree_to_list (tree_for_compression root))
        = some (tree_for_compression root) ∧
      ∀ code : List Char, decodeC code (tree_for_compression root) = decode code root) := by
  constructor
  · intro x hx
    exact ser_deser_bounded (sizeOf x) x le_rfl hx
  · intro root
    refine ⟨list_to_tree_tree_to_list (tree_for_compression root), ?_⟩
    intro code
    unfold decodeC decode
    exact decodeGo_strip root code root []

/-- Witness for C7 at a concrete serialized value. -/
theorem c7_serialize_round_trip_witness :
    ∃ t, list_to_tree (JVal.arr [JVal.chr '\x00',
        JVal.arr [JVal.chr 'a', JVal.null, JVal.null],
        JVal.arr [JVal.chr 'b', JVal.null, JVal.null]]) = some t ∧
      tree_to_list t = JVal.arr [JVal.chr '\x00',
        JVal.arr [JVal.chr 'a', JVal.null, JVal.null],
        JVal.arr [JVal.chr 'b', JVal.null, JVal.null]] :=
  c7_serialize_round_trip.1 _ rfl

/-- Claim C9: `decode` depends only on the tree shape and the leaf letters:
for every bit string and tree, decoding with the count-stripped tree
obtained by round-tripping through `tree_for_compression` / `tree_to_list` /
`list_to_tree` yields the same output as decoding with the original
count-carrying tree. -/
theorem c9_decode_ignores_counts :
    ∀ (code : List Char) (t : Node), ∃ ct,
      list_to_tree (tree_to_list (tree_for_compression t)) = some ct ∧
      decodeC code ct = decode code t := by
  intro code t
  refine ⟨tree_for_compression t, list_to_tree_tree_to_list _, ?_⟩
  unfold decodeC decode
  exact decodeGo_strip t code t []

/-- Paths of entries rooted at prefix `p` are the root-relative paths
prefixed by `p`. -/
theorem entN_shift : ∀ (n : Node) (p : List Char),
    entN n p = (entN n []).map (fun e => (e.1, p ++ e.2))
  | Node.mk _ l none none, p => by simp [entN]
  | Node.mk c l (some a) none, p => by
    rw [show entN (Node.mk c l (some a) none) p = entN a (p ++ ['0']) ++ [] from rfl,
        show entN (Node.mk c l (some a) none) [] = entN a ([] ++ ['0']) ++ [] from rfl]
    rw [entN_shift a (p ++ ['0']), entN_shift a ([] ++ ['0'])]
    simp [List.map_map, Function.comp_def, List.append_assoc]
  | Node.mk c l none (some b), p => by
    rw [show entN (Node.mk c l none (some b)) p = [] ++ entN b (p ++ ['1']) from rfl,
        show entN (Node.mk c l none (some b)) [] = [] ++ entN b ([] ++ ['1']) from rfl]
    rw [entN_shift b (p ++ ['1']), entN_shift b ([] ++ ['1'])]
    simp [List.map_map, Function.comp_def, List.append_assoc]
  | Node.mk c l (some a) (some b), p => by
    rw [show entN (Node.mk c l (some a) (some b)) p
          = entN a (p ++ ['0']) ++ entN b (p ++ ['1']) from rfl,
        show entN (Node.mk c l (some a) (some b)) []
          = entN a ([] ++ ['0']) ++ entN b ([] ++ ['1']) from rfl]
    rw [entN_shift a (p ++ ['0']), entN_shift a ([] ++ ['0']),
        entN_shift b (p ++ ['1']), entN_shift b ([] ++ ['1'])]
    simp [List.map_map, Function.comp_def, List.append_assoc]

/-- The function `make_table_recursive` on a node prepends exactly the reversed entry
list of that node to the incoming table. -/
theorem makeTableNode_entries : ∀ (n : Node) (path : List Char) (table : Table),
    makeTableNode n path table = (entN n path).reverse ++ table
  | Node.mk _ l none none, path, table => by simp [makeTableNode, entN, dictSet]
  | Node.mk c l (some a) none, path, table => by
    rw [show makeTableNode (Node.mk c l (some a) none) path table
          = makeTableNode a (path ++ ['0']) table from rfl,
        makeTableNode_entries a (path ++ ['0']) table]
    simp [entN]
  | Node.mk c l none (some b), path, table => by
    rw [show makeTableNode (Node.mk c l none (some b)) path table
          = makeTableNode b (path ++ ['1']) table from rfl,
        makeTableNode_entries b (path ++ ['1']) table]
    simp [entN]
  | Node.mk c l (some a) (some b), path, table => by
    rw [show makeTableNode (Node.mk c l (some a) (some b)) path table
          = makeTableNode b (path ++ ['1']) (makeTableNode a (path ++ ['0']) table) from rfl,
        makeTableNode_entries a (path ++ ['0']) table,
        makeTableNode_entries b (path ++ ['1']) ((entN a (path ++ ['0'])).reverse ++ table)]
    rw [show entN (Node.mk c l (some a) (some b)) path
          = entN a (path ++ ['0']) ++ entN b (path ++ ['1']) from rfl]
    simp [List.reverse_append, List.append_assoc]

/-- A successful lookup in `make_table root` designates one of the
leaf-path entries of the tree. -/
theorem make_table_get (root : Node) (k : Char) (v : List Char)
    (h : dictGet? (make_table root) k = some v) : (k, v) ∈ entN root [] := by
  have hmt : make_table root = (entN root []).reverse ++ [] := by
    unfold make_table make_table_recursive
    exact makeTableNode_entries root [] []
  rw [hmt] at h
  unfold dictGet? at h
  cases hf : ((entN root []).reverse ++ []).find? (fun p : Char × List Char => p.1 == k) with
  | none => rw [hf] at h; exact absurd h (by simp)
  | some pair =>
    rw [hf] at h
    have hpk : pair.1 = k := by
      have := List.find?_some hf
      exact eq_of_beq this
    have hpv : pair.2 = v := by
      simpa using h
    have hmem : pair ∈ (entN root []).reverse ++ [] := List.mem_of_find?_eq_some hf
    have hmem2 : pair ∈ entN root [] := by simpa using hmem
    have : pair = (k, v) := by
      cases pair with
      | mk x y => simp at hpk hpv; rw [hpk, hpv]
    rwa [this] at hmem2

/-- Two paths that diverge after a common prefix are mutually non-initial. -/
theorem pref_cross : ∀ (p0 : List Char) (s1 s2 : List Char) (c d : Char), c ≠ d →
    isPrefOf (p0 ++ c :: s1) (p0 ++ d :: s2) = false := by
  intro p0
  induction p0 with
  | nil =>
    intro s1 s2 c d hcd
    have hdc : (d == c) = false := beq_eq_false_iff_ne.mpr (Ne.symm hcd)
    simp [isPrefOf, List.take, hdc]
  | cons a p ih =>
    intro s1 s2 c d hcd
    have := ih s1 s2 c d hcd
    simp only [isPrefOf, List.cons_append, List.length_cons, List.take] at this ⊢
    simp only [List.cons_beq_cons, beq_self_eq_true, Bool.true_and]
    exact this

/-- The entry paths of any node are pairwise mutually non-initial. -/
theorem entN_pairwise : ∀ (n : Node) (p : List Char),
    List.Pairwise
      (fun e1 e2 : Char × List Char =>
        isPrefOf e1.2 e2.2 = false ∧ isPrefOf e2.2 e1.2 = false)
      (entN n p)
  | Node.mk _ l none none, p => by simp [entN]
  | Node.mk c l (some a) none, p => by
    rw [show entN (Node.mk c l (some a) none) p = entN a (p ++ ['0']) ++ [] from rfl]
    simpa using entN_pairwise a (p ++ ['0'])
  | Node.mk c l none (some b), p => by
    rw [show entN (Node.mk c l none (some b)) p = [] ++ entN b (p ++ ['1']) from rfl]
    simpa using entN_pairwise b (p ++ ['1'])
  | Node.mk c l (some a) (some b), p => by
    rw [show entN (Node.mk c l (some a) (some b)) p
          = entN a (p ++ ['0']) ++ entN b (p ++ ['1']) from rfl]
    rw [List.pairwise_append]
    refine ⟨entN_pairwise a (p ++ ['0']), entN_pairwise b (p ++ ['1']), ?_⟩
    intro e1 h1 e2 h2
    rw [entN_shift a (p ++ ['0'])] at h1
    rw [entN_shift b (p ++ ['1'])] at h2
    obtain ⟨x1, _, hx1⟩ := List.mem_map.mp h1
    obtain ⟨x2, _, hx2⟩ := List.mem_map.mp h2
    have he1 : e1.2 = p ++ '0' :: x1.2 := by
      rw [← hx1]; simp [List.append_assoc]
    have he2 : e2.2 = p ++ '1' :: x2.2 := by
      rw [← hx2]; simp [List.append_assoc]
    rw [he1, he2]
    exact ⟨pref_cross p x1.2 x2.2 '0' '1' (by decide),
           pref_cross p x2.2 x1.2 '1' '0' (by decide)⟩

/-- Claim C6: every code table derived by `make_table` from a tree built by
`make_tree` is prefix-free: for distinct symbols `a` and `b` in the table,
the code of `a` is not an initial segment of the code of `b` and vice versa. -/
theorem c6_code_table_is_not_nested :
    ∀ (heap : List Node) (root : Node), make_tree heap = some root →
    ∀ (a b : Char) (ca cb : List Char), a ≠ b →
      dictGet? (make_table root) a = some ca →
      dictGet? (make_table root) b = some cb →
      isPrefOf ca cb = false ∧ isPrefOf cb ca = false := by
  intro heap root _ a b ca cb hab ha hb
  have hma : (a, ca) ∈ entN root [] := make_table_get root a ca ha
  have hmb : (b, cb) ∈ entN root [] := make_table_get root b cb hb
  have hpw := entN_pairwise root []
  have hsym : Symmetric
      (fun e1 e2 : Char × List Char =>
        isPrefOf e1.2 e2.2 = false ∧ isPrefOf e2.2 e1.2 = false) := by
    intro x y hxy
    exact ⟨hxy.2, hxy.1⟩
  have hne : (a, ca) ≠ (b, cb) := by
    intro hcontra
    exact hab (congrArg Prod.fst hcontra)
  exact hpw.forall hsym hma hmb hne

/-- Witness for C6 on the two-leaf tree built from the heap
`[(1,'a'), (2,'b')]`. -/
theorem c6_code_table_is_not_nested_witness :
    make_tree [Node.mk 1 'a' none none, Node.mk 2 'b' none none]
      = some (Node.mk 3 '\x00' (some (Node.mk 1 'a' none none))
          (some (Node.mk 2 'b' none none))) ∧
    isPrefOf ['0'] ['1'] = false ∧ isPrefOf ['1'] ['0'] = false :=
  ⟨rfl,
    c6_code_table_is_not_nested
      [Node.mk 1 'a' none none, Node.mk 2 'b' none none]
      (Node.mk 3 '\x00' (some (Node.mk 1 'a' none none)) (some (Node.mk 2 'b' none none)))
      rfl 'a' 'b' ['0'] ['1'] (by decide) rfl rfl⟩

/-- The placeholder node is a leaf, hence proper. -/
theorem properB_dummy : properB dummy = true := rfl

/-- A defaulted list read yields a list element or the default. -/
theorem getD_mem_or_eq (l : List Node) (i : Nat) (d : Node) :
    l.getD i d ∈ l ∨ l.getD i d = d := by
  rw [List.getD_eq_getElem?_getD]
  cases h : l[i]? with
  | none => right; rfl
  | some x => left; exact List.getElem?_mem h

/-- The function `siftdownLoop` only rearranges list elements and writes `newitem`, so
properness of all elements is preserved. -/
theorem siftdownLoop_proper : ∀ (fuel : Nat) (heap : List Node) (s p : Nat) (ni : Node),
    (∀ x ∈ heap, properB x = true) → properB ni = true →
    ∀ y ∈ siftdownLoop fuel heap s p ni, properB y = true := by
  intro fuel
  induction fuel with
  | zero =>
    intro heap s p ni hall hni y hy
    simp only [siftdownLoop] at hy
    rcases List.mem_or_eq_of_mem_set hy with h | h
    · exact hall y h
    · rw [h]; exact hni
  | succ f ih =>
    intro heap s p ni hall hni y hy
    by_cases hc : s < p
    · by_cases hlt : nodeLt ni (heap[(p - 1) / 2]?.getD dummy) = true
      · have hstep : siftdownLoop (f + 1) heap s p ni
            = siftdownLoop f (heap.set p (heap.getD ((p - 1) / 2) dummy)) s ((p - 1) / 2) ni := by
          simp [siftdownLoop, hc, hlt]
        rw [hstep] at hy
        refine ih _ s _ ni ?_ hni y hy
        intro z hz
        rcases List.mem_or_eq_of_mem_set hz with h | h
        · exact hall z h
        · rcases getD_mem_or_eq heap ((p - 1) / 2) dummy with hm | hm
          · rw [h]; exact hall _ hm
          · rw [h, hm]; exact properB_dummy
      · have hstep : siftdownLoop (f + 1) heap s p ni = heap.set p ni := by
          simp [siftdownLoop, hc, hlt]
        rw [hstep] at hy
        rcases List.mem_or_eq_of_mem_set hy with h | h
        · exact hall y h
        · rw [h]; exact hni
    · have hstep : siftdownLoop (f + 1) heap s p ni = heap.set p ni := by
        simp [siftdownLoop, hc]
      rw [hstep] at hy
      rcases List.mem_or_eq_of_mem_set hy with h | h
      · exact hall y h
      · rw [h]; exact hni

/-- The function `siftdown` preserves properness of all elements. -/
theorem siftdown_proper (heap : List Node) (s p : Nat)
    (hall : ∀ x ∈ heap, properB x = true) :
    ∀ y ∈ siftdown heap s p, properB y = true := by
  intro y hy
  refine siftdownLoop_proper p heap s p (heap.getD p dummy) hall ?_ y hy
  rcases getD_mem_or_eq heap p dummy with hm | hm
  · exact hall _ hm
  · rw [hm]; exact properB_dummy

/-- The function `siftupLoop` only rearranges list elements, so properness of all
elements is preserved. -/
theorem siftupLoop_proper : ∀ (fuel : Nat) (heap : List Node) (e p : Nat),
    (∀ x ∈ heap, properB x = true) →
    ∀ y ∈ (siftupLoop fuel heap e p).1, properB y = true := by
  intro fuel
  induction fuel with
  | zero => intro heap e p hall y hy; exact hall y hy
  | succ f ih =>
    intro heap e p hall y hy
    by_cases hc : 2 * p + 1 < e
    · have hstep : (siftupLoop (f + 1) heap e p).1
          = (siftupLoop f
              (heap.set p (heap.getD
                (if 2 * p + 1 + 1 < e &&
                    !(nodeLt (heap.getD (2 * p + 1) dummy) (heap.getD (2 * p + 1 + 1) dummy))
                  then 2 * p + 1 + 1 else 2 * p + 1) dummy)) e
              (if 2 * p + 1 + 1 < e &&
                  !(nodeLt (heap.getD (2 * p + 1) dummy) (heap.getD (2 * p + 1 + 1) dummy))
                then 2 * p + 1 + 1 else 2 * p + 1)).1 := by
        simp only [siftupLoop, hc, if_pos]
      rw [hstep] at hy
      refine ih _ e _ ?_ y hy
      intro z hz
      rcases List.mem_or_eq_of_mem_set hz with h | h
      · exact hall z h
      · rcases getD_mem_or_eq heap _ dummy with hm | hm
        · rw [h]; exact hall _ hm
        · rw [h, hm]; exact properB_dummy
    · have hstep : (siftupLoop (f + 1) heap e p).1 = heap := by
        simp [siftupLoop, hc]
      rw [hstep] at hy
      exact hall y hy

/-- The function `siftup` preserves properness of all elements. -/
theorem siftup_proper (heap : List Node) (p : Nat)
    (hall : ∀ x ∈ heap, properB x = true) :
    ∀ y ∈ siftup heap p, properB y = true := by
  intro y hy
  unfold siftup at hy
  refine siftdown_proper _ p _ ?_ y hy
  intro z hz
  rcases List.mem_or_eq_of_mem_set hz with h | h
  · exact siftupLoop_proper heap.length heap heap.length p hall z h
  · rcases getD_mem_or_eq heap p dummy with hm | hm
    · rw [h]; exact hall _ hm
    · rw [h, hm]; exact properB_dummy

/-- The function `heappush` preserves properness when the pushed item is proper. -/
theorem heappush_proper (heap : List Node) (item : Node)
    (hall : ∀ x ∈ heap, properB x = true) (hit : properB item = true) :
    ∀ y ∈ heappush heap item, properB y = true := by
  intro y hy
  unfold heappush at hy
  refine siftdown_proper _ 0 heap.length ?_ y hy
  intro z hz
  rcases List.mem_append.mp hz with h | h
  · exact hall z h
  · rw [List.mem_singleton.mp h]; exact hit

/-- The function `heappop` returns a proper element and a proper remainder. -/
theorem heappop_proper (heap : List Node) (x : Node) (rest : List Node)
    (hall : ∀ z ∈ heap, properB z = true) (h : heappop heap = some (x, rest)) :
    properB x = true ∧ ∀ y ∈ rest, properB y = true := by
  unfold heappop at h
  cases hl : heap.getLast? with
  | none => rw [hl] at h; exact absurd h (by simp)
  | some lastelt =>
    rw [hl] at h
    have hlast : lastelt ∈ heap := List.mem_of_getLast?_eq_some hl
    cases hd : heap.dropLast with
    | nil =>
      rw [hd] at h
      simp only [Option.some.injEq, Prod.mk.injEq] at h
      obtain ⟨hx, hr⟩ := h
      constructor
      · rw [← hx]; exact hall _ hlast
      · rw [← hr]; intro y hy; exact absurd hy (by simp)
    | cons r0 rtail =>
      rw [hd] at h
      simp only [Option.some.injEq, Prod.mk.injEq] at h
      obtain ⟨hx, hr⟩ := h
      have hsub : ∀ z ∈ r0 :: rtail, properB z = true := by
        intro z hz
        refine hall z ?_
        rw [← hd] at hz
        exact List.mem_of_mem_dropLast hz
      constructor
      · rw [← hx]; exact hsub r0 (by simp)
      · rw [← hr]
        intro y hy
        refine siftup_proper _ 0 ?_ y hy
        intro z hz
        rcases List.mem_or_eq_of_mem_set hz with hm | hm
        · exact hsub z hm
        · rw [hm]; exact hall _ hlast

/-- The function `siftdownLoop` preserves the list length. -/
theorem siftdownLoop_length : ∀ (fuel : Nat) (heap : List Node) (s p : Nat) (ni : Node),
    (siftdownLoop fuel heap s p ni).length = heap.length := by
  intro fuel
  induction fuel with
  | zero => intro heap s p ni; simp [siftdownLoop]
  | succ f ih =>
    intro heap s p ni
    by_cases hc : s < p
    · by_cases hlt : nodeLt ni (heap[(p - 1) / 2]?.getD dummy) = true
      · rw [show siftdownLoop (f + 1) heap s p ni
            = siftdownLoop f (heap.set p (heap.getD ((p - 1) / 2) dummy)) s ((p - 1) / 2) ni from by
          simp [siftdownLoop, hc, hlt]]
        rw [ih]
        simp
      · rw [show siftdownLoop (f + 1) heap s p ni = heap.set p ni from by
          simp [siftdownLoop, hc, hlt]]
        simp
    · rw [show siftdownLoop (f + 1) heap s p ni = heap.set p ni from by
        simp [siftdownLoop, hc]]
      simp

/-- The function `siftdown` preserves the list length. -/
theorem siftdown_length (heap : List Node) (s p : Nat) :
    (siftdown heap s p).length = heap.length := by
  unfold siftdown
  rw [siftdownLoop_length]

/-- The function `siftupLoop` preserves the list length. -/
theorem siftupLoop_length : ∀ (fuel : Nat) (heap : List Node) (e p : Nat),
    (siftupLoop fuel heap e p).1.length = heap.length := by
  intro fuel
  induction fuel with
  | zero => intro heap e p; rfl
  | succ f ih =>
    intro heap e p
    by_cases hc : 2 * p + 1 < e
    · rw [show (siftupLoop (f + 1) heap e p).1
          = (siftupLoop f
              (heap.set p (heap.getD
                (if 2 * p + 1 + 1 < e &&
                    !(nodeLt (heap.getD (2 * p + 1) dummy) (heap.getD (2 * p + 1 + 1) dummy))
                  then 2 * p + 1 + 1 else 2 * p + 1) dummy)) e
              (if 2 * p + 1 + 1 < e &&
                  !(nodeLt (heap.getD (2 * p + 1) dummy) (heap.getD (2 * p + 1 + 1) dummy))
                then 2 * p + 1 + 1 else 2 * p + 1)).1 from by
        simp only [siftupLoop, hc, if_pos]]
      rw [ih]
      simp
    · rw [show (siftupLoop (f + 1) heap e p).1 = heap from by simp [siftupLoop, hc]]

/-- The function `siftup` preserves the list length. -/
theorem siftup_length (heap : List Node) (p : Nat) :
    (siftup heap p).length = heap.length := by
  unfold siftup
  rw [siftdown_length]
  rw [List.length_set, siftupLoop_length]

/-- The function `heappush` grows the list by one. -/
theorem heappush_length (heap : List Node) (item : Node) :
    (heappush heap item).length = heap.length + 1 := by
  unfold heappush
  rw [siftdown_length]
  simp

/-- The function `heappop` shrinks the list by one. -/
theorem heappop_length (heap : List Node) (x : Node) (rest : List Node)
    (h : heappop heap = some (x, rest)) : rest.length = heap.length - 1 := by
  unfold heappop at h
  cases hl : heap.getLast? with
  | none => rw [hl] at h; exact absurd h (by simp)
  | some lastelt =>
    rw [hl] at h
    cases hd : heap.dropLast with
    | nil =>
      rw [hd] at h
      simp only [Option.some.injEq, Prod.mk.injEq] at h
      rw [← h.2]
      have := List.length_dropLast heap
      rw [hd] at this
      simp at this ⊢
      omega
    | cons r0 rtail =>
      rw [hd] at h
      simp only [Option.some.injEq, Prod.mk.injEq] at h
      rw [← h.2]
      rw [siftup_length, List.length_set]
      have := List.length_dropLast heap
      rw [hd] at this
      rw [this]

/-- The function `heappop` succeeds on a non-empty list. -/
theorem heappop_some (heap : List Node) (h : heap ≠ []) :
    ∃ x rest, heappop heap = some (x, rest) := by
  unfold heappop
  cases hl : heap.getLast? with
  | none => exact absurd (List.getLast?_eq_none_iff.mp hl) h
  | some lastelt =>
    cases heap.dropLast with
    | nil => exact ⟨lastelt, [], rfl⟩
    | cons r0 rtail => exact ⟨r0, _, rfl⟩

/-- The function `heapifyLoop` preserves properness of all elements. -/
theorem heapifyLoop_proper : ∀ (i : Nat) (heap : List Node),
    (∀ x ∈ heap, properB x = true) → ∀ y ∈ heapifyLoop heap i, properB y = true := by
  intro i
  induction i with
  | zero => intro heap hall y hy; exact hall y hy
  | succ j ih =>
    intro heap hall y hy
    rw [show heapifyLoop heap (j + 1) = heapifyLoop (siftup heap j) j from rfl] at hy
    exact ih (siftup heap j) (siftup_proper heap j hall) y hy

/-- The function `heapifyLoop` preserves the list length. -/
theorem heapifyLoop_length : ∀ (i : Nat) (heap : List Node),
    (heapifyLoop heap i).length = heap.length := by
  intro i
  induction i with
  | zero => intro heap; rfl
  | succ j ih =>
    intro heap
    rw [show heapifyLoop heap (j + 1) = heapifyLoop (siftup heap j) j from rfl]
    rw [ih, siftup_length]

/-- The function `heapify` preserves properness of all elements. -/
theorem heapify_proper (heap : List Node) (hall : ∀ x ∈ heap, properB x = true) :
    ∀ y ∈ heapify heap, properB y = true :=
  heapifyLoop_proper (heap.length / 2) heap hall

/-- The function `heapify` preserves the list length. -/
theorem heapify_length (heap : List Node) : (heapify heap).length = heap.length :=
  heapifyLoop_length (heap.length / 2) heap

/-- The final `heappop` of `make_tree` returns a proper root. -/
theorem pop_root_proper (heap : List Node) (root : Node)
    (hall : ∀ x ∈ heap, properB x = true)
    (h : (heappop heap).map Prod.fst = some root) : properB root = true := by
  cases hp : heappop heap with
  | none => rw [hp] at h; exact absurd h (by simp)
  | some pr =>
    rw [hp] at h
    simp only [Option.map_some', Option.some.injEq] at h
    cases pr with
    | mk x rest =>
      have := heappop_proper heap x rest hall hp
      rw [← h]
      exact this.1

/-- The function `makeTreeLoop` returns a proper root whenever the heap is all-proper. -/
theorem makeTreeLoop_proper : ∀ (fuel : Nat) (heap : List Node) (root : Node),
    (∀ x ∈ heap, properB x = true) → makeTreeLoop fuel heap = some root →
    properB root = true := by
  intro fuel
  induction fuel with
  | zero =>
    intro heap root hall h
    exact pop_root_proper heap root hall h
  | succ f ih =>
    intro heap root hall h
    by_cases hlen : heap.length ≤ 1
    · rw [show makeTreeLoop (f + 1) heap = (heappop heap).map Prod.fst from by
        simp [makeTreeLoop, hlen]] at h
      exact pop_root_proper heap root hall h
    · have hne : heap ≠ [] := by
        intro hnil; rw [hnil] at hlen; exact hlen (by simp)
      obtain ⟨l, h1, hp1⟩ := heappop_some heap hne
      have hl1 : h1.length = heap.length - 1 := heappop_length heap l h1 hp1
      have hne1 : h1 ≠ [] := by
        intro hnil
        rw [hnil] at hl1
        simp at hl1
        omega
      obtain ⟨r, h2, hp2⟩ := heappop_some h1 hne1
      have hprop1 := heappop_proper heap l h1 hall hp1
      have hprop2 := heappop_proper h1 r h2 hprop1.2 hp2
      have hm : properB (Node.mk (l.count + r.count) '\x00' (some l) (some r)) = true := by
        simp [properB, hprop1.1, hprop2.1]
      rw [show makeTreeLoop (f + 1) heap
          = makeTreeLoop f (heappush h2 (Node.mk (l.count + r.count) '\x00' (some l) (some r)))
          from by simp [makeTreeLoop, hlen, hp1, hp2]] at h
      exact ih _ root (heappush_proper h2 _ hprop2.2 hm) h

/-- With at least two heap entries and fuel equal to the heap length,
`makeTreeLoop` returns an internal root (both children present). -/
theorem makeTreeLoop_internal : ∀ (fuel : Nat) (heap : List Node) (root : Node),
    fuel = heap.length → 2 ≤ heap.length → makeTreeLoop fuel heap = some root →
    root.left.isSome = true ∧ root.right.isSome = true := by
  intro fuel
  induction fuel with
  | zero =>
    intro heap root hf h2 _
    omega
  | succ f ih =>
    intro heap root hf h2 h
    have hlen : ¬heap.length ≤ 1 := by omega
    have hne : heap ≠ [] := by
      intro hnil; rw [hnil] at h2; simp at h2
    obtain ⟨l, h1, hp1⟩ := heappop_some heap hne
    have hl1 : h1.length = heap.length - 1 := heappop_length heap l h1 hp1
    have hne1 : h1 ≠ [] := by
      intro hnil
      rw [hnil] at hl1
      simp at hl1
      omega
    obtain ⟨r, h2v, hp2⟩ := heappop_some h1 hne1
    have hl2 : h2v.length = h1.length - 1 := heappop_length h1 r h2v hp2
    have hpushlen : (heappush h2v (Node.mk (l.count + r.count) '\x00' (some l) (some r))).length
        = h2v.length + 1 := heappush_length _ _
    rw [show makeTreeLoop (f + 1) heap
        = makeTreeLoop f (heappush h2v (Node.mk (l.count + r.count) '\x00' (some l) (some r)))
        from by simp [makeTreeLoop, hlen, hp1, hp2]] at h
    by_cases hf2 : 2 ≤ f
    · exact ih _ root (by omega) (by omega) h
    · have hf1 : f = 1 := by omega
      have hz : h2v.length = 0 := by omega
      have h2nil : h2v = [] := List.eq_nil_of_length_eq_zero hz
      rw [h2nil, hf1] at h
      rw [show heappush [] (Node.mk (l.count + r.count) '\x00' (some l) (some r))
          = [Node.mk (l.count + r.count) '\x00' (some l) (some r)] from rfl] at h
      rw [show makeTreeLoop 1 [Node.mk (l.count + r.count) '\x00' (some l) (some r)]
          = some (Node.mk (l.count + r.count) '\x00' (some l) (some r)) from rfl] at h
      simp only [Option.some.injEq] at h
      rw [← h]
      exact ⟨rfl, rfl⟩

/-- Entry paths of a non-leaf node are non-empty (they start with the bit of
the child they descend into). -/
theorem entN_ne_nil_of_not_leaf : ∀ (n : Node), is_leaf n = false →
    ∀ e ∈ entN n [], e.2 ≠ [] := by
  intro n hnl e he
  cases n with
  | mk c l le ri =>
    cases le with
    | none =>
      cases ri with
      | none => simp [is_leaf, Node.left, Node.right] at hnl
      | some b =>
        rw [show entN (Node.mk c l none (some b)) [] = [] ++ entN b ([] ++ ['1']) from rfl] at he
        rw [entN_shift b] at he
        simp only [List.nil_append, List.mem_map] at he
        obtain ⟨x, _, hx⟩ := he
        rw [← hx]
        simp
    | some a =>
      cases ri with
      | none =>
        rw [show entN (Node.mk c l (some a) none) [] = entN a ([] ++ ['0']) ++ [] from rfl] at he
        rw [entN_shift a] at he
        simp only [List.append_nil, List.nil_append, List.mem_map] at he
        obtain ⟨x, _, hx⟩ := he
        rw [← hx]
        simp
      | some b =>
        rw [show entN (Node.mk c l (some a) (some b)) []
            = entN a ([] ++ ['0']) ++ entN b ([] ++ ['1']) from rfl] at he
        rw [entN_shift a, entN_shift b] at he
        simp only [List.nil_append, List.mem_append, List.mem_map] at he
        rcases he with ⟨x, _, hx⟩ | ⟨x, _, hx⟩ <;> (rw [← hx]; simp)

/-- A leaf's entries are exactly its letter with the empty relative path. -/
theorem entN_leaf_eq (n : Node) (hleaf : is_leaf n = true) :
    entN n [] = [(n.letter, [])] := by
  cases n with
  | mk c l le ri =>
    cases le with
    | some a => simp [is_leaf, Node.left] at hleaf
    | none =>
      cases ri with
      | some b => simp [is_leaf, Node.right] at hleaf
      | none => rfl

/-- Walking `decode` along one full leaf path from a proper node consumes
the path, emits the leaf letter and resets to the root. -/
theorem decodeGo_entry : ∀ (p : List Char) (root n : Node) (x : Char) (rest res : List Char),
    properB n = true → (x, p) ∈ entN n [] → p ≠ [] →
    decodeGo root (p ++ rest) n res = decodeGo root rest root (res ++ [x]) := by
  intro p
  induction p with
  | nil => intro root n x rest res _ _ hne; exact absurd rfl hne
  | cons c p' ih =>
    intro root n x rest res hprop hmem _
    cases n with
    | mk cnt lt le ri =>
      cases le with
      | none =>
        cases ri with
        | none =>
          rw [show entN (Node.mk cnt lt none none) [] = [(lt, [])] from rfl] at hmem
          simp at hmem
        | some b => simp [properB] at hprop
      | some a =>
        cases ri with
        | none => simp [properB] at hprop
        | some b =>
          have hprops : properB a = true ∧ properB b = true := by
            simpa [properB, Bool.and_eq_true] using hprop
          rw [show entN (Node.mk cnt lt (some a) (some b)) []
              = entN a ([] ++ ['0']) ++ entN b ([] ++ ['1']) from rfl] at hmem
          rw [entN_shift a, entN_shift b] at hmem
          simp only [List.nil_append, List.mem_append, List.mem_map] at hmem
          rcases hmem with ⟨e, hel, hee⟩ | ⟨e, hel, hee⟩
          · have hx : e.1 = x := congrArg Prod.fst hee
            have hps : (['0'] ++ e.2 : List Char) = c :: p' := congrArg Prod.snd hee
            simp only [List.cons_append, List.nil_append, List.cons.injEq] at hps
            obtain ⟨hc, hp'⟩ := hps
            rw [← hc]
            have hstep : decodeGo root (('0' :: p') ++ rest) (Node.mk cnt lt (some a) (some b)) res
                = if is_leaf a then decodeGo root (p' ++ rest) root (res ++ [a.letter])
                  else decodeGo root (p' ++ rest) a res := rfl
            rw [hstep]
            by_cases hleaf : is_leaf a
            · rw [if_pos hleaf]
              rw [entN_leaf_eq a hleaf] at hel
              simp only [List.mem_singleton] at hel
              have he2 : e.2 = [] := congrArg Prod.snd hel
              have he1 : e.1 = a.letter := congrArg Prod.fst hel
              rw [← hp', he2, ← hx, he1]
              rfl
            · rw [if_neg hleaf]
              have hene : e.2 ≠ [] :=
                entN_ne_nil_of_not_leaf a (by simpa using hleaf) e hel
              have hmem' : (x, p') ∈ entN a [] := by
                have : e = (x, p') := by
                  cases e with
                  | mk e1 e2 =>
                    simp only [Prod.mk.injEq]
                    exact ⟨by simpa using hx, by simpa using hp'⟩
                exact this ▸ hel
              refine ih root a x rest res hprops.1 hmem' ?_
              rw [← hp']
              exact hene
          · have hx : e.1 = x := congrArg Prod.fst hee
            have hps : (['1'] ++ e.2 : List Char) = c :: p' := congrArg Prod.snd hee
            simp only [List.cons_append, List.nil_append, List.cons.injEq] at hps
            obtain ⟨hc, hp'⟩ := hps
            rw [← hc]
            have hstep : decodeGo root (('1' :: p') ++ rest) (Node.mk cnt lt (some a) (some b)) res
                = if is_leaf b then decodeGo root (p' ++ rest) root (res ++ [b.letter])
                  else decodeGo root (p' ++ rest) b res := rfl
            rw [hstep]
            by_cases hleaf : is_leaf b
            · rw [if_pos hleaf]
              rw [entN_leaf_eq b hleaf] at hel
              simp only [List.mem_singleton] at hel
              have he2 : e.2 = [] := congrArg Prod.snd hel
              have he1 : e.1 = b.letter := congrArg Prod.fst hel
              rw [← hp', he2, ← hx, he1]
              rfl
            · rw [if_neg hleaf]
              have hene : e.2 ≠ [] :=
                entN_ne_nil_of_not_leaf b (by simpa using hleaf) e hel
              have hmem' : (x, p') ∈ entN b [] := by
                have : e = (x, p') := by
                  cases e with
                  | mk e1 e2 =>
                    simp only [Prod.mk.injEq]
                    exact ⟨by simpa using hx, by simpa using hp'⟩
                exact this ▸ hel
              refine ih root b x rest res hprops.2 hmem' ?_
              rw [← hp']
              exact hene

/-- Chaining `decodeGo` over a concatenation of leaf paths recovers the
corresponding letters in order. -/
theorem decode_chain : ∀ (text : List Char) (codes : List (List Char)) (root : Node)
    (res : List Char),
    properB root = true →
    List.Forall₂ (fun c p => (c, p) ∈ entN root [] ∧ p ≠ []) text codes →
    decodeGo root codes.flatten root res = some (res ++ text) := by
  intro text
  induction text with
  | nil =>
    intro codes root res _ hf
    cases hf
    simp [decodeGo]
  | cons c cs ih =>
    intro codes root res hroot hf
    cases hf with
    | cons hcp htail =>
      rw [List.flatten_cons]
      rw [decodeGo_entry _ root root c _ res hroot hcp.1 hcp.2]
      rw [ih _ root (res ++ [c]) hroot htail]
      simp

/-- A successful `mapM` of table lookups relates each character to its
looked-up code, positionally. -/
theorem mapM_lookup_forall2 : ∀ (text : List Char) (table : Table) (codes : List (List Char)),
    text.mapM (tableLookup table) = Except.ok codes →
    List.Forall₂ (fun c p => dictGet? table c = some p) text codes := by
  intro text
  induction text with
  | nil =>
    intro table codes h
    simp only [List.mapM_nil] at h
    have : codes = [] := by
      simpa [pure, Except.pure] using h.symm
    rw [this]
    exact List.Forall₂.nil
  | cons c cs ih =>
    intro table codes h
    rw [List.mapM_cons] at h
    cases hl : tableLookup table c with
    | error e => rw [hl] at h; simp [Bind.bind, Except.bind] at h
    | ok p =>
      rw [hl] at h
      cases hm : cs.mapM (tableLookup table) with
      | error e => rw [hm] at h; simp [Bind.bind, Except.bind, pure, Except.pure] at h
      | ok ps =>
        rw [hm] at h
        have hcodes : p :: ps = codes := by
          simpa [Bind.bind, Except.bind, pure, Except.pure] using h
        rw [← hcodes]
        refine List.Forall₂.cons ?_ (ih table ps hm)
        unfold tableLookup at hl
        cases hg : dictGet? table c with
        | none => rw [hg] at hl; simp at hl
        | some v =>
          rw [hg] at hl
          simp only [Except.ok.injEq] at hl
          rw [hl]

/-- Claim C8: for every text with at least two distinct symbols, the
bit-by-bit walk of `decode` over the output of `encode` never steps onto a
missing child: `decode` completes and returns a result. -/
theorem c8_decode_never_hits_missing_child :
    ∀ (text code : List Char) (root : Node),
      2 ≤ (counter_keys text).length →
      encode text = Except.ok (code, root) →
      (decode code root).isSome = true := by
  intro text code root hk h
  unfold encode at h
  simp only [] at h
  cases hmt : make_tree (heapify ((counter_items text).map fun p => Node.mk p.2 p.1 none none)) with
  | none => rw [hmt] at h; exact absurd h (by simp)
  | some root' =>
    rw [hmt] at h
    simp only [] at h
    cases hmm : text.mapM (tableLookup (make_table root')) with
    | error e => rw [hmm] at h; exact absurd h (by simp)
    | ok codes =>
      rw [hmm] at h
      simp only [Except.ok.injEq, Prod.mk.injEq] at h
      obtain ⟨hcode, hroot⟩ := h
      subst hroot
      have hall : ∀ x ∈ heapify ((counter_items text).map fun p => Node.mk p.2 p.1 none none),
          properB x = true := by
        apply heapify_proper
        intro x hx
        obtain ⟨pct, _, hx'⟩ := List.mem_map.mp hx
        rw [← hx']
        rfl
      have hroot_proper : properB root' = true := by
        unfold make_tree at hmt
        exact makeTreeLoop_proper _ _ root' hall hmt
      have hlen : 2 ≤ (heapify ((counter_items text).map
          fun p => Node.mk p.2 p.1 none none)).length := by
        rw [heapify_length, List.length_map]
        unfold counter_items
        rw [List.length_map]
        exact hk
      have hint : root'.left.isSome = true ∧ root'.right.isSome = true := by
        unfold make_tree at hmt
        exact makeTreeLoop_internal _ _ root' rfl hlen hmt
      have hnl : is_leaf root' = false := by
        unfold is_leaf
        cases hx : root'.left with
        | none => rw [hx] at hint; exact absurd hint.1 (by simp)
        | some a => simp
      have hf2 : List.Forall₂ (fun c p => (c, p) ∈ entN root' [] ∧ p ≠ []) text codes := by
        have hbase := mapM_lookup_forall2 text (make_table root') codes hmm
        refine List.Forall₂.imp ?_ hbase
        intro c p hcp
        have hmem := make_table_get root' c p hcp
        exact ⟨hmem, entN_ne_nil_of_not_leaf root' hnl (c, p) hmem⟩
      rw [← hcode]
      unfold decode
      rw [decode_chain text codes root' [] hroot_proper hf2]
      rfl

/-- Witness for C8 on the two-symbol text "ab". -/
theorem c8_decode_never_hits_missing_child_witness :
    (decode ['0', '1']
      (Node.mk 2 '\x00' (some (Node.mk 1 'a' none none))
        (some (Node.mk 1 'b' none none)))).isSome = true :=
  c8_decode_never_hits_missing_child ['a', 'b'] ['0', '1']
    (Node.mk 2 '\x00' (some (Node.mk 1 'a' none none)) (some (Node.mk 1 'b' none none)))
    (by decide) rfl
